import Mathlib

/-!
Verification of the safe archive-extraction filter in
`AWS-Sagemaker/src/sagemaker/workflow/_repack_model.py`.

Python strings are modelled as `List Char` (a Python `str` is a sequence of
code points).  The POSIX path helpers the script imports
(`os.path.join`, `abspath`, `realpath`, `normpath`, `dirname`) are embedded
following the CPython `posixpath` implementations.  The filesystem state that
`realpath` consults is modelled as a symlink table: a finite association list
from an absolute path to the declared link target.  `lstat` on a path absent
from the table behaves like a non-link (both regular files and nonexistent
paths are non-links for `realpath`'s purposes, so only symlinks need to be
recorded).  CPython's `_joinrealpath` detects symlink cycles with a `seen`
dictionary; here a link-resolution fuel plays that role: each symlink hop
descends one fuel level, and exhausted fuel bails out exactly like CPython's
cycle branch (returning the remaining components joined, unresolved).  For an
acyclic table the fuel `fs.length + 1` used by `realpath` never runs out on the
inputs considered in this development, and with an empty table it is never
consumed at all.
-/

namespace RepackModel

/-- A Python `str`: a sequence of characters. -/
abbrev Str := List Char

/-- Split a string on the separator character, POSIX `'/'`.
`splitc "a/b" = ["a", "b"]`, `splitc "" = [""]`, `splitc "/a" = ["", "a"]`,
matching Python `str.split("/")`. -/
def splitc : Str → List Str
  | [] => [[]]
  | c :: rest =>
    if c = '/' then [] :: splitc rest
    else
      match splitc rest with
      | [] => [[c]]
      | h :: t => (c :: h) :: t

/-- Interleave the separator between components: Python `"/".join(parts)`. -/
def joinc : List Str → Str
  | [] => []
  | [p] => p
  | p :: ps => p ++ '/' :: joinc ps

/-- Whether a path is absolute: `posixpath.isabs`, i.e. starts with `'/'`. -/
def isAbsPath (p : Str) : Bool :=
  match p with
  | [] => false
  | c :: _ => c == '/'

/-- Two-argument `posixpath.join(base, p)`: an absolute `p` discards `base`;
otherwise `p` is appended, inserting a separator unless `base` is empty or
already ends in one. -/
def joinpath (base p : Str) : Str :=
  if isAbsPath p then p
  else if base = [] then p
  else if base.getLast? = some '/' then base ++ p
  else base ++ '/' :: p

/-- The component loop of `posixpath.normpath`: drop empty and `"."`
components, let `".."` pop the previous component except at an absolute root
or when it cannot be cancelled.  `acc` is the accumulated output, reversed. -/
def normAux (isAbs : Bool) : List Str → List Str → List Str
  | [], acc => acc.reverse
  | c :: rest, acc =>
    if c = [] ∨ c = ['.'] then normAux isAbs rest acc
    else if c ≠ ['.', '.'] ∨ (¬ isAbs ∧ acc = []) ∨ acc.head? = some ['.', '.'] then
      normAux isAbs rest (c :: acc)
    else
      normAux isAbs rest acc.tail

/-- POSIX keeps exactly two leading slashes special: `normpath("//a") = "//a"`
but `normpath("///a") = "/a"`. -/
def isDoubleSlash (p : Str) : Bool :=
  List.isPrefixOf ['/', '/'] p && ! List.isPrefixOf ['/', '/', '/'] p

/-- `posixpath.normpath`: collapse `"."`, `".."` and redundant separators. -/
def normpath (p : Str) : Str :=
  if p = [] then ['.']
  else
    let slashes : Str :=
      if isAbsPath p then (if isDoubleSlash p then ['/', '/'] else ['/']) else []
    let comps := normAux (isAbsPath p) (splitc p) []
    let res := slashes ++ joinc comps
    if res = [] then ['.'] else res

/-- `posixpath.abspath`, with the process working directory passed explicitly:
join a relative path onto `cwd`, then normalize. -/
def abspath (cwd p : Str) : Str :=
  if isAbsPath p then normpath p else normpath (joinpath cwd p)

/-- Strip all trailing separators: Python `head.rstrip("/")`. -/
def stripSlashes (l : Str) : Str :=
  (l.reverse.dropWhile (fun c => c = '/')).reverse

/-- `posixpath.split`: break off the component after the last separator; the
head keeps no trailing separators unless it consists only of separators. -/
def splitPath (p : Str) : Str × Str
  :=
  let r := p.reverse
  let tl := (r.takeWhile (fun c => c ≠ '/')).reverse
  let hd := (r.dropWhile (fun c => c ≠ '/')).reverse
  let hd2 := if hd ≠ [] ∧ ¬ (hd.all (fun c => c = '/')) then stripSlashes hd else hd
  (hd2, tl)

/-- `posixpath.dirname`. -/
def dirname (p : Str) : Str := (splitPath p).1

/-- The filesystem state visible to `realpath`: the table of symlinks,
mapping an absolute path to its declared target text. -/
abbrev Fs := List (Str × Str)

/-- Look a path up in the symlink table (the `lstat`/`S_ISLNK` test plus
`readlink` of CPython `_joinrealpath`). -/
def lookupLink (fs : Fs) (p : Str) : Option Str :=
  (fs.find? (fun e => e.1 == p)).map (fun e => e.2)

/-- The `".."` branch of CPython `_joinrealpath`: pop the last component of
the already-resolved path, keeping uncancellable `".."` components. -/
def dropLastComp (path : Str) : Str :=
  if path = [] then ['.', '.']
  else
    let ht := splitPath path
    if ht.2 = ['.', '.'] then joinpath path ['.', '.']
    else ht.1

/-- The component walk of CPython `_joinrealpath`, parameterized by the
handler invoked when a component is a symlink.  The handler receives the
resolved path so far, the path of the link itself, its target text and the
remaining components, and produces the final result. -/
def walkComps (fs : Fs) (onLink : Str → Str → Str → List Str → Str × Bool) :
    Str → List Str → Str × Bool
  | path, [] => (path, true)
  | path, name :: rest =>
    if name = [] ∨ name = ['.'] then walkComps fs onLink path rest
    else if name = ['.', '.'] then walkComps fs onLink (dropLastComp path) rest
    else
      let newpath := joinpath path name
      match lookupLink fs newpath with
      | none => walkComps fs onLink newpath rest
      | some target => onLink path newpath target rest

/-- CPython `_joinrealpath` with fuel bounding the symlink-resolution depth
(standing in for the `seen`-dictionary cycle detection): resolve each
component in turn, recursing into link targets; on exhausted fuel, bail out
unresolved exactly as the CPython cycle branch does. -/
def jrpFuel (fs : Fs) : Nat → Str → List Str → Str × Bool
  | 0 =>
    walkComps fs (fun _ newpath _ rest => (joinpath newpath (joinc rest), false))
  | f + 1 =>
    walkComps fs (fun path _ target rest =>
      let tb := if isAbsPath target then (['/'] : Str) else path
      let tc := if isAbsPath target then splitc (target.drop 1) else splitc target
      let r := jrpFuel fs f tb tc
      if r.2 then jrpFuel fs f r.1 rest
      else (joinpath r.1 (joinc rest), false))

/-- `posixpath.realpath` (non-strict): resolve symlinks along the existing
part of the path, tolerate nonexistent components, and return the absolute
normalized result.  Mirrors `abspath(_joinrealpath('', filename)[0])`. -/
def realpath (fs : Fs) (cwd p : Str) : Str :=
  let r :=
    if isAbsPath p then jrpFuel fs (fs.length + 1) ['/'] (splitc (p.drop 1))
    else jrpFuel fs (fs.length + 1) [] (splitc p)
  abspath cwd r.1

/-- `_get_resolved_path` (source lines 35-43):
`normpath(realpath(abspath(path)))`. -/
def _get_resolved_path (fs : Fs) (cwd p : Str) : Str :=
  normpath (realpath fs cwd (abspath cwd p))

/-- `_is_bad_path` (source lines 46-60): the joined path's resolved form must
have `base` as a string prefix (`str.startswith`), else the path is bad. -/
def _is_bad_path (fs : Fs) (cwd : Str) (path base : Str) : Bool :=
  ! List.isPrefixOf base (_get_resolved_path fs cwd (joinpath base path))

/-- The member types a tar entry can declare. -/
inductive MemberType
  | reg
  | dir
  | sym
  | lnk
  | other
deriving DecidableEq

/-- `tarfile.TarInfo`, restricted to the attributes the filter reads. -/
structure TarInfo where
  name : Str
  type : MemberType
  linkname : Str
deriving DecidableEq

/-- `TarInfo.issym()`. -/
def TarInfo.issym (m : TarInfo) : Bool :=
  match m.type with
  | MemberType.sym => true
  | _ => false

/-- `TarInfo.islnk()`. -/
def TarInfo.islnk (m : TarInfo) : Bool :=
  match m.type with
  | MemberType.lnk => true
  | _ => false

/-- The `tip` of `_is_bad_link` (source line 76): the canonical directory
that will contain the link once extracted. -/
def linkTip (fs : Fs) (cwd base : Str) (m : TarInfo) : Str :=
  _get_resolved_path fs cwd (joinpath base (dirname m.name))

/-- `_is_bad_link` (source lines 63-77): re-run the path check with the
link's containing directory as the base and the link target as candidate. -/
def _is_bad_link (fs : Fs) (cwd : Str) (m : TarInfo) (base : Str) : Bool :=
  _is_bad_path fs cwd m.linkname (linkTip fs cwd base m)

/-- The classification outcome of one member. -/
inductive Classification
  | safe
  | blockedPath
  | blockedSymlink
  | blockedHardlink
deriving DecidableEq

/-- The `if / elif / elif / else` chain of `_get_safe_members`
(source lines 94-101), one member at a time. -/
def classifyMember (fs : Fs) (cwd base : Str) (m : TarInfo) : Classification :=
  if _is_bad_path fs cwd m.name base then Classification.blockedPath
  else if m.issym && _is_bad_link fs cwd m base then Classification.blockedSymlink
  else if m.islnk && _is_bad_link fs cwd m base then Classification.blockedHardlink
  else Classification.safe

/-- The base directory `_get_safe_members` actually classifies against
(source line 91): `_get_resolved_path(".")`, the resolved current working
directory. -/
def filterBase (fs : Fs) (cwd : Str) : Str := _get_resolved_path fs cwd ['.']

/-- Whether the chain yields the member. -/
def isSafeMember (fs : Fs) (cwd base : Str) (m : TarInfo) : Bool :=
  match classifyMember fs cwd base m with
  | Classification.safe => true
  | _ => false

/-- `_get_safe_members` (source lines 80-101), with the lazy generator
evaluated eagerly: the members the chain yields, in order. -/
def _get_safe_members (fs : Fs) (cwd : Str) (members : List TarInfo) : List TarInfo :=
  members.filter (isSafeMember fs cwd (filterBase fs cwd))

/-- The observable effect of one `extractall` call: the target path, the
member subset passed (none when the platform data filter handles selection),
and which implementation ran. -/
structure ExtractCall where
  extractPath : Str
  selected : Option (List TarInfo)
  usedDataFilter : Bool
deriving DecidableEq

/-- `custom_extractall_tarfile` (source lines 104-123): when the runtime's
`tarfile` exposes `data_filter`, delegate to `extractall(filter="data")`;
otherwise extract the members `_get_safe_members` yields. -/
def custom_extractall_tarfile (fs : Fs) (cwd : Str) (hasDataFilter : Bool)
    (tarMembers : List TarInfo) (extract_path : Str) : ExtractCall :=
  if hasDataFilter then
    { extractPath := extract_path, selected := none, usedDataFilter := true }
  else
    { extractPath := extract_path,
      selected := some (_get_safe_members fs cwd tarMembers),
      usedDataFilter := false }

/-- The spec's containment notion, used to compare the code's check against
the specified invariant: `p` is equal to the base directory or a descendant
of it, i.e. extends it past a separator boundary. -/
def specDescendantOrEqual (p base : Str) : Bool :=
  (p == base) || List.isPrefixOf (base ++ ['/']) p

/-- Each component preceded by a separator, flattened; the path text a chain
of `joinpath` steps appends after the base. -/
def slashJoin (cs : List Str) : Str :=
  (cs.map (fun c => '/' :: c)).flatten

end RepackModel

namespace RepackModel

theorem splitc_single (l : Str) (h : '/' ∉ l) : splitc l = [l] := by
  induction l with
  | nil => rfl
  | cons c rest ih =>
    have hc : ¬ (c = '/') := by
      intro hc
      subst hc
      exact h (List.mem_cons_self _ _)
    have hr : '/' ∉ rest := fun hm => h (List.mem_cons_of_mem _ hm)
    simp [splitc, hc, ih hr]

theorem splitc_sep_append (p r : Str) (h : '/' ∉ p) :
    splitc (p ++ '/' :: r) = p :: splitc r := by
  induction p with
  | nil => simp [splitc]
  | cons c p' ih =>
    have hc : ¬ (c = '/') := by
      intro hc
      subst hc
      exact h (List.mem_cons_self _ _)
    have hp : '/' ∉ p' := fun hm => h (List.mem_cons_of_mem _ hm)
    simp [splitc, hc, ih hp]

theorem splitc_joinc (ps : List Str) (hne : ps ≠ [])
    (h : ∀ p ∈ ps, '/' ∉ p) : splitc (joinc ps) = ps := by
  induction ps with
  | nil => exact absurd rfl hne
  | cons p ps ih =>
    cases ps with
    | nil => exact splitc_single p (h p (List.mem_cons_self _ _))
    | cons q t =>
      have hp : '/' ∉ p := h p (List.mem_cons_self _ _)
      have hrec := ih (by simp) (fun x hx => h x (List.mem_cons_of_mem _ hx))
      simp only [joinc]
      rw [splitc_sep_append p (joinc (q :: t)) hp, hrec]

theorem mem_splitc_no_sep (l : Str) : ∀ x ∈ splitc l, '/' ∉ x := by
  induction l with
  | nil =>
    intro x hx
    simp [splitc] at hx
    simp [hx]
  | cons c rest ih =>
    intro x hx
    by_cases hc : c = '/'
    · subst hc
      simp [splitc] at hx
      rcases hx with h | h
      · simp [h]
      · exact ih x h
    · simp only [splitc, if_neg hc] at hx
      cases hsp : splitc rest with
      | nil =>
        rw [hsp] at hx
        simp at hx
        subst hx
        intro hm
        rcases List.mem_cons.mp hm with h' | h'
        · exact hc h'.symm
        · simp at h'
      | cons hd tl =>
        rw [hsp] at hx
        simp at hx
        rcases hx with h1 | h1
        · subst h1
          have hhd : '/' ∉ hd := ih hd (by rw [hsp]; exact List.mem_cons_self _ _)
          intro hm
          rcases List.mem_cons.mp hm with h' | h'
          · exact hc h'.symm
          · exact hhd h'
        · exact ih x (by rw [hsp]; exact List.mem_cons_of_mem _ h1)

theorem normAux_mem (b : Bool) (cs : List Str) (acc : List Str) :
    ∀ x ∈ normAux b cs acc, x ∈ cs ∨ x ∈ acc := by
  induction cs generalizing acc with
  | nil =>
    intro x hx
    simp [normAux] at hx
    exact Or.inr hx
  | cons c rest ih =>
    intro x hx
    simp only [normAux] at hx
    split at hx
    · rcases ih acc x hx with h | h
      · exact Or.inl (List.mem_cons_of_mem _ h)
      · exact Or.inr h
    · split at hx
      · rcases ih (c :: acc) x hx with h | h
        · exact Or.inl (List.mem_cons_of_mem _ h)
        · rcases List.mem_cons.mp h with h' | h'
          · subst h'
            exact Or.inl (List.mem_cons_self _ _)
          · exact Or.inr h'
      · rcases ih acc.tail x hx with h | h
        · exact Or.inl (List.mem_cons_of_mem _ h)
        · exact Or.inr ((List.tail_sublist acc).subset h)

theorem normAux_abs_good (cs : List Str) (acc : List Str)
    (hacc : ∀ a ∈ acc, a ≠ [] ∧ a ≠ ['.'] ∧ a ≠ ['.', '.']) :
    ∀ x ∈ normAux true cs acc, x ≠ [] ∧ x ≠ ['.'] ∧ x ≠ ['.', '.'] := by
  induction cs generalizing acc with
  | nil =>
    intro x hx
    simp [normAux] at hx
    exact hacc x hx
  | cons c rest ih =>
    intro x hx
    simp only [normAux] at hx
    split at hx
    · exact ih acc hacc x hx
    · next h1 =>
      split at hx
      · next h2 =>
        have hcdd : c ≠ ['.', '.'] := by
          rcases h2 with h | h | h
          · exact h
          · simp at h
          · exfalso
            cases hacc2 : acc with
            | nil =>
              rw [hacc2] at h
              simp at h
            | cons a t =>
              rw [hacc2] at h
              simp at h
              exact (hacc a (by rw [hacc2]; exact List.mem_cons_self _ _)).2.2 h
        refine ih (c :: acc) ?_ x hx
        intro a ha
        rcases List.mem_cons.mp ha with h' | h'
        · subst h'
          refine ⟨?_, ?_, hcdd⟩
          · intro hh
            exact h1 (Or.inl hh)
          · intro hh
            exact h1 (Or.inr hh)
        · exact hacc a h'
      · exact ih acc.tail (fun a ha => hacc a ((List.tail_sublist acc).subset ha)) x hx

theorem normAux_abs_id (cs : List Str) (acc : List Str)
    (h : ∀ x ∈ cs, x ≠ [] ∧ x ≠ ['.'] ∧ x ≠ ['.', '.']) :
    normAux true cs acc = acc.reverse ++ cs := by
  induction cs generalizing acc with
  | nil => simp [normAux]
  | cons c rest ih =>
    obtain ⟨h1, h2, h3⟩ := h c (List.mem_cons_self _ _)
    have hcond : ¬ (c = [] ∨ c = ['.']) := by simp [h1, h2]
    simp only [normAux, if_neg hcond, if_pos (Or.inl h3)]
    rw [ih (c :: acc) (fun x hx => h x (List.mem_cons_of_mem _ hx))]
    simp

theorem walkComps_nil_fs (onLink : Str → Str → Str → List Str → Str × Bool)
    (path : Str) (comps : List Str)
    (h : ∀ x ∈ comps, x ≠ [] ∧ x ≠ ['.'] ∧ x ≠ ['.', '.']) :
    walkComps [] onLink path comps = (List.foldl joinpath path comps, true) := by
  induction comps generalizing path with
  | nil => simp [walkComps]
  | cons c rest ih =>
    obtain ⟨h1, h2, h3⟩ := h c (List.mem_cons_self _ _)
    have hcond : ¬ (c = [] ∨ c = ['.']) := by simp [h1, h2]
    simp only [walkComps, if_neg hcond, if_neg h3, lookupLink, List.find?_nil,
      Option.map_none']
    exact ih (joinpath path c) (fun x hx => h x (List.mem_cons_of_mem _ hx))

theorem jrpFuel_nil (f : Nat) (path : Str) (comps : List Str)
    (h : ∀ x ∈ comps, x ≠ [] ∧ x ≠ ['.'] ∧ x ≠ ['.', '.']) :
    jrpFuel [] f path comps = (List.foldl joinpath path comps, true) := by
  cases f with
  | zero => exact walkComps_nil_fs _ path comps h
  | succ f => exact walkComps_nil_fs _ path comps h


theorem getLast?_ne_sep (l : Str) (h : '/' ∉ l) : l.getLast? ≠ some '/' := by
  induction l with
  | nil => simp
  | cons a t ih =>
    cases t with
    | nil =>
      simp only [List.getLast?_singleton]
      intro ha
      apply h
      rw [Option.some_inj.mp ha]
      exact List.mem_cons_self _ _
    | cons b t2 =>
      rw [List.getLast?_cons_cons]
      exact ih (fun hm => h (List.mem_cons_of_mem _ hm))

theorem getLast?_sep_cons (c : Str) (h1 : c ≠ []) (h4 : '/' ∉ c) :
    ('/' :: c).getLast? ≠ some '/' := by
  cases c with
  | nil => exact absurd rfl h1
  | cons a t =>
    rw [List.getLast?_cons_cons]
    exact getLast?_ne_sep (a :: t) h4

theorem isAbsPath_false_of_no_sep (c : Str) (h1 : c ≠ []) (h4 : '/' ∉ c) :
    isAbsPath c = false := by
  cases c with
  | nil => exact absurd rfl h1
  | cons a t =>
    simp only [isAbsPath]
    simp only [beq_eq_false_iff_ne, ne_eq]
    intro ha
    subst ha
    exact h4 (List.mem_cons_self _ _)

theorem foldl_joinpath_eq (cs : List Str) (path : Str)
    (hp : path ≠ []) (hl : path.getLast? ≠ some '/')
    (hc : ∀ c ∈ cs, c ≠ [] ∧ '/' ∉ c) :
    List.foldl joinpath path cs = path ++ slashJoin cs := by
  induction cs generalizing path with
  | nil => simp [slashJoin]
  | cons c rest ih =>
    obtain ⟨h1, h2⟩ := hc c (List.mem_cons_self _ _)
    have habs : isAbsPath c = false := isAbsPath_false_of_no_sep c h1 h2
    have hjoin : joinpath path c = path ++ '/' :: c := by
      simp [joinpath, habs, hp, hl]
    rw [List.foldl_cons, hjoin]
    rw [ih (path ++ '/' :: c) (by simp)
      (by
        rw [List.getLast?_append_of_ne_nil path (by simp)]
        exact getLast?_sep_cons c h1 h2)
      (fun x hx => hc x (List.mem_cons_of_mem _ hx))]
    simp [slashJoin]

theorem joinc_eq_slashJoin (c : Str) (cs : List Str) :
    joinc (c :: cs) = c ++ slashJoin cs := by
  induction cs generalizing c with
  | nil => simp [joinc, slashJoin]
  | cons d t ih =>
    simp only [joinc]
    rw [ih d]
    simp [slashJoin]

theorem normpath_abs (p : Str) (h1 : isAbsPath p = true) (h2 : isDoubleSlash p = false) :
    normpath p = '/' :: joinc (normAux true (splitc p) []) := by
  have hne : p ≠ [] := by
    cases p with
    | nil => simp [isAbsPath] at h1
    | cons a t => simp
  simp only [normpath, if_neg hne, h1, h2]
  simp

theorem normpath_comps_good (s : Str) :
    ∀ x ∈ normAux true (splitc s) [], x ≠ [] ∧ x ≠ ['.'] ∧ x ≠ ['.', '.'] ∧ '/' ∉ x := by
  intro x hx
  have hg := normAux_abs_good (splitc s) [] (by simp) x hx
  have hm := normAux_mem true (splitc s) [] x hx
  rcases hm with hm | hm
  · exact ⟨hg.1, hg.2.1, hg.2.2, mem_splitc_no_sep s x hm⟩
  · simp at hm

theorem normpath_slash_joinc (C : List Str)
    (hC : ∀ x ∈ C, x ≠ [] ∧ x ≠ ['.'] ∧ x ≠ ['.', '.'] ∧ '/' ∉ x) :
    normpath ('/' :: joinc C) = '/' :: joinc C := by
  cases C with
  | nil => decide
  | cons c rest =>
    obtain ⟨h1, h2, h3, h4⟩ := hC c (List.mem_cons_self _ _)
    have habs : isAbsPath ('/' :: joinc (c :: rest)) = true := by
      simp [isAbsPath]
    have hds : isDoubleSlash ('/' :: joinc (c :: rest)) = false := by
      rw [joinc_eq_slashJoin]
      cases c with
      | nil => exact absurd rfl h1
      | cons a t =>
        have ha : ('/' == a) = false := by
          simp only [beq_eq_false_iff_ne, ne_eq]
          intro hh
          subst hh
          exact h4 (List.mem_cons_self _ _)
        show isDoubleSlash ('/' :: a :: (t ++ slashJoin rest)) = false
        have hx : List.isPrefixOf ['/', '/'] ('/' :: a :: (t ++ slashJoin rest)) = false := by
          rw [List.isPrefixOf_cons₂, List.isPrefixOf_cons₂, ha]
          simp
        simp [isDoubleSlash, hx]
    rw [normpath_abs _ habs hds]
    have hsplit : splitc ('/' :: joinc (c :: rest)) = [] :: (c :: rest) := by
      have : splitc (joinc (c :: rest)) = c :: rest :=
        splitc_joinc (c :: rest) (by simp) (fun x hx => (hC x hx).2.2.2)
      simp [splitc, this]
    rw [hsplit]
    have hgood : ∀ x ∈ (c :: rest), x ≠ [] ∧ x ≠ ['.'] ∧ x ≠ ['.', '.'] :=
      fun x hx => ⟨(hC x hx).1, (hC x hx).2.1, (hC x hx).2.2.1⟩
    have : normAux true ([] :: c :: rest) [] = normAux true (c :: rest) [] := by
      simp [normAux]
    rw [this, normAux_abs_id _ [] hgood]
    simp

theorem realpath_nil_slash_joinc (cwd : Str) (C : List Str)
    (hC : ∀ x ∈ C, x ≠ [] ∧ x ≠ ['.'] ∧ x ≠ ['.', '.'] ∧ '/' ∉ x) :
    realpath [] cwd ('/' :: joinc C) = '/' :: joinc C := by
  cases C with
  | nil => rfl
  | cons c rest =>
    obtain ⟨h1, h2, h3, h4⟩ := hC c (List.mem_cons_self _ _)
    have hsp : splitc (('/' :: joinc (c :: rest)).drop 1) = c :: rest := by
      simp only [List.drop_succ_cons, List.drop_zero]
      exact splitc_joinc (c :: rest) (by simp) (fun x hx => (hC x hx).2.2.2)
    have hgood : ∀ x ∈ (c :: rest), x ≠ [] ∧ x ≠ ['.'] ∧ x ≠ ['.', '.'] :=
      fun x hx => ⟨(hC x hx).1, (hC x hx).2.1, (hC x hx).2.2.1⟩
    have habs : isAbsPath ('/' :: joinc (c :: rest)) = true := by
      simp [isAbsPath]
    show abspath cwd
        (if isAbsPath ('/' :: joinc (c :: rest)) then
            jrpFuel [] 1 ['/'] (splitc (('/' :: joinc (c :: rest)).drop 1))
          else jrpFuel [] 1 [] (splitc ('/' :: joinc (c :: rest)))).1
      = '/' :: joinc (c :: rest)
    rw [if_pos (by simp [isAbsPath] : isAbsPath ('/' :: joinc (c :: rest)) = true)]
    rw [hsp, jrpFuel_nil 1 ['/'] (c :: rest) hgood]
    have hfold : List.foldl joinpath ['/'] (c :: rest) = '/' :: joinc (c :: rest) := by
      have hjoin1 : joinpath ['/'] c = '/' :: c := by
        have habsc : isAbsPath c = false := isAbsPath_false_of_no_sep c h1 h4
        simp [joinpath, habsc]
      rw [List.foldl_cons, hjoin1]
      rw [foldl_joinpath_eq rest ('/' :: c) (by simp)
        (getLast?_sep_cons c h1 h4)
        (fun x hx => ⟨(hC x (List.mem_cons_of_mem _ hx)).1,
          (hC x (List.mem_cons_of_mem _ hx)).2.2.2⟩)]
      rw [joinc_eq_slashJoin]
      simp
    rw [hfold]
    show abspath cwd ('/' :: joinc (c :: rest)) = '/' :: joinc (c :: rest)
    rw [abspath, if_pos habs]
    exact normpath_slash_joinc (c :: rest) hC


theorem isAbsPath_append (cwd l : Str) (h : isAbsPath cwd = true) :
    isAbsPath (cwd ++ l) = true := by
  cases cwd with
  | nil => simp [isAbsPath] at h
  | cons a t => simpa [isAbsPath] using h

theorem isAbsPath_joinpath (cwd x : Str) (h : isAbsPath cwd = true) :
    isAbsPath (joinpath cwd x) = true := by
  have hne : cwd ≠ [] := by
    cases cwd with
    | nil => simp [isAbsPath] at h
    | cons a t => simp
  by_cases hx : isAbsPath x = true
  · simp [joinpath, hx]
  · by_cases hlast : cwd.getLast? = some '/'
    · simp only [joinpath, hx, if_neg hne, hlast]
      simp only [if_true, if_false]
      exact isAbsPath_append cwd x h
    · simp only [joinpath, hx, if_neg hne, hlast]
      simp only [if_true, if_false]
      exact isAbsPath_append cwd ('/' :: x) h

theorem isDoubleSlash_normpath (s : Str) (h1 : isAbsPath s = true)
    (h2 : isDoubleSlash s = true) :
    isDoubleSlash (normpath s) = true := by
  have hne : s ≠ [] := by
    cases s with
    | nil => simp [isAbsPath] at h1
    | cons a t => simp
  simp only [normpath, if_neg hne, h1, h2]
  simp only [if_true]
  cases hC2 : normAux true (splitc s) [] with
  | nil => decide
  | cons c rest =>
    have hgood := normpath_comps_good s c (by rw [hC2]; exact List.mem_cons_self _ _)
    have hres : (['/', '/'] ++ joinc (c :: rest)) ≠ [] := by simp
    rw [if_neg hres]
    rw [joinc_eq_slashJoin]
    cases c with
    | nil => exact absurd rfl hgood.1
    | cons a t =>
      have ha : ('/' == a) = false := by
        simp only [beq_eq_false_iff_ne, ne_eq]
        intro hh
        subst hh
        exact hgood.2.2.2 (List.mem_cons_self _ _)
      show isDoubleSlash ('/' :: '/' :: a :: (t ++ slashJoin rest)) = true
      have hx2 : List.isPrefixOf ['/', '/'] ('/' :: '/' :: a :: (t ++ slashJoin rest)) = true := by
        rw [List.isPrefixOf_cons₂, List.isPrefixOf_cons₂]
        simp
      have hx3 : List.isPrefixOf ['/', '/', '/'] ('/' :: '/' :: a :: (t ++ slashJoin rest)) = false := by
        rw [List.isPrefixOf_cons₂, List.isPrefixOf_cons₂, List.isPrefixOf_cons₂, ha]
        simp
      simp [isDoubleSlash, hx2, hx3]

theorem resolved_path_nil_fs (cwd p : Str)
    (h1 : isAbsPath cwd = true)
    (h2 : isDoubleSlash (abspath cwd p) = false) :
    _get_resolved_path [] cwd p = normpath (abspath cwd p) := by
  have habs : ∃ s, abspath cwd p = normpath s ∧ isAbsPath s = true := by
    by_cases hp : isAbsPath p = true
    · exact ⟨p, by simp [abspath, hp], hp⟩
    · exact ⟨joinpath cwd p, by simp [abspath, hp], isAbsPath_joinpath cwd p h1⟩
  obtain ⟨s, hs, hsabs⟩ := habs
  have hds : isDoubleSlash s = false := by
    by_cases hd : isDoubleSlash s = true
    · have hcontra := isDoubleSlash_normpath s hsabs hd
      rw [← hs] at hcontra
      rw [hcontra] at h2
      cases h2
    · exact eq_false_of_ne_true hd
  have hq : abspath cwd p = '/' :: joinc (normAux true (splitc s) []) := by
    rw [hs]
    exact normpath_abs s hsabs hds
  have hgood := normpath_comps_good s
  show normpath (realpath [] cwd (abspath cwd p)) = normpath (abspath cwd p)
  rw [hq, realpath_nil_slash_joinc cwd _ hgood, normpath_slash_joinc _ hgood]


/-- Claim C1 (code bug): the spec's invariant says every member the filter
yields as Safe resolves to a location equal to or a descendant of the
canonical base directory.  The code's check is a plain `str.startswith` with
no segment boundary, so against base `/out` the member `../out-evil/x`
resolves to `/out-evil/x` — a sibling of `/out`, not a descendant — yet is
yielded.  This theorem evaluates the code at that failing input: the member
is yielded, and its resolved location is not equal to nor a descendant of
the base. -/
theorem c1_invariant_violation_eval :
    _get_safe_members [] ("/out".data)
        [{ name := ("../out-evil/x".data), type := MemberType.reg, linkname := [] }]
      = [{ name := ("../out-evil/x".data), type := MemberType.reg, linkname := [] }]
    ∧ specDescendantOrEqual
        (_get_resolved_path [] ("/out".data)
          (joinpath (filterBase [] ("/out".data)) ("../out-evil/x".data)))
        (filterBase [] ("/out".data)) = false := by
  decide

/-- Claim C2 counterexample: the claim says a member whose resolved path
merely extends the base as a character prefix (here `/outside/f` against base
`/out`) is classified BlockedPath.  The code classifies it Safe: the
containment comparison enforces no segment boundary. -/
theorem c2_sibling_accepted :
    classifyMember [] ("/out".data) ("/out".data)
        { name := ("../outside/f".data), type := MemberType.reg, linkname := [] }
      = Classification.safe
    ∧ _get_resolved_path [] ("/out".data)
        (joinpath ("/out".data) ("../outside/f".data)) = ("/outside/f".data) := by
  decide

/-- Claim C2 (amended): the containment comparison is a plain string-prefix
test on canonical forms with no segment boundary: any member whose resolved
path has the canonical base as a character prefix — separator boundary or
not — is accepted as contained and is never classified BlockedPath. -/
theorem c2_amended_plain_string_containment (fs : Fs) (cwd base : Str) (m : TarInfo)
    (h : List.isPrefixOf base
        (_get_resolved_path fs cwd (joinpath base m.name)) = true) :
    classifyMember fs cwd base m ≠ Classification.blockedPath := by
  have hbad : _is_bad_path fs cwd m.name base = false := by
    simp [_is_bad_path, h]
  simp only [classifyMember, hbad, Bool.false_eq_true, if_false]
  split
  · simp
  · split
    · simp
    · simp

/-- Claim C2 witness: the amended theorem applied at the sibling-extension
input `../outside/f` against base `/out`. -/
theorem c2_amended_witness :
    classifyMember [] ("/out".data) ("/out".data)
        { name := ("../outside/f".data), type := MemberType.reg, linkname := [] }
      ≠ Classification.blockedPath :=
  c2_amended_plain_string_containment [] ("/out".data) ("/out".data) _ (by decide)

/-- Claim C3 (code bug): the claim says the filter's base directory is the
canonicalized `extract_path` parameter of the extraction call.  In the code,
`_get_safe_members` hardcodes `base = _get_resolved_path(".")` — the
resolved current working directory — while extraction targets
`extract_path`.  With cwd `/` and `extract_path` `/out`, the member `../x`
is yielded (everything is under `/`) even though it is a bad path relative
to the canonicalized extract path `/out`. -/
theorem c3_cwd_not_extract_path_eval :
    (custom_extractall_tarfile [] ("/".data) false
        [{ name := ("../x".data), type := MemberType.reg, linkname := [] }]
        ("/out".data)).selected
      = some [{ name := ("../x".data), type := MemberType.reg, linkname := [] }]
    ∧ _is_bad_path [] ("/".data) ("../x".data)
        (_get_resolved_path [] ("/".data) ("/out".data)) = true := by
  decide

/-- Claim C4 counterexample: the claim says the link check blocks a member
iff its target resolves outside the base directory, so a target inside the
base but outside the link's own containing directory would be Safe.  The
code compares against `tip` (the containing directory), not the base: the
symlink `sub/link -> ../a` under base `/out` has target resolving to
`/out/a`, inside the base, yet is classified BlockedSymlink. -/
theorem c4_inside_base_target_blocked :
    classifyMember [] ("/out".data) ("/out".data)
        { name := ("sub/link".data), type := MemberType.sym, linkname := ("../a".data) }
      = Classification.blockedSymlink
    ∧ specDescendantOrEqual
        (_get_resolved_path [] ("/out".data)
          (joinpath
            (linkTip [] ("/out".data) ("/out".data)
              { name := ("sub/link".data), type := MemberType.sym,
                linkname := ("../a".data) })
            ("../a".data)))
        ("/out".data) = true := by
  decide

/-- Claim C4 (amended): for a symbolic-link or hard-link member whose name
passes the path check, the member is Safe iff its declared target, resolved
relative to `tip` (the canonical directory that will contain the link), has
`tip` itself as a string prefix; containment is tested against `tip`, not
against the base directory, so a target inside the base but outside the
containing directory is blocked (BlockedSymlink or BlockedHardlink
respectively). -/
theorem c4_amended_tip_containment (fs : Fs) (cwd base : Str) (m : TarInfo)
    (hlink : m.issym = true ∨ m.islnk = true)
    (hpath : _is_bad_path fs cwd m.name base = false) :
    (classifyMember fs cwd base m = Classification.safe
      ↔ List.isPrefixOf (linkTip fs cwd base m)
          (_get_resolved_path fs cwd
            (joinpath (linkTip fs cwd base m) m.linkname)) = true) := by
  have hbadlink : _is_bad_link fs cwd m base
      = ! List.isPrefixOf (linkTip fs cwd base m)
          (_get_resolved_path fs cwd (joinpath (linkTip fs cwd base m) m.linkname)) := rfl
  rcases hlink with hsym | hlnk
  · have hlnk : m.islnk = false := by
      cases hm : m.type <;> simp [TarInfo.issym, TarInfo.islnk, hm] at hsym ⊢
    simp only [classifyMember, hpath, hsym, hlnk, Bool.false_eq_true, if_false,
      Bool.true_and, Bool.false_and, hbadlink]
    cases hX : List.isPrefixOf (linkTip fs cwd base m)
        (_get_resolved_path fs cwd (joinpath (linkTip fs cwd base m) m.linkname)) <;>
      simp [hX]
  · have hsym : m.issym = false := by
      cases hm : m.type <;> simp [TarInfo.issym, TarInfo.islnk, hm] at hlnk ⊢
    simp only [classifyMember, hpath, hsym, hlnk, Bool.false_eq_true, if_false,
      Bool.true_and, Bool.false_and, hbadlink]
    cases hX : List.isPrefixOf (linkTip fs cwd base m)
        (_get_resolved_path fs cwd (joinpath (linkTip fs cwd base m) m.linkname)) <;>
      simp [hX]

/-- Claim C4 witness: the amended theorem applied under base `/out` to the
symlink `sub/link -> b` (target inside its containing directory: Safe), to
the hard link `sub/hl -> c` (likewise Safe), and to the hard link
`sub/hl2 -> ../esc`, whose target `/out/esc` leaves the containing directory
`/out/sub` and which is therefore not Safe. -/
theorem c4_amended_witness :
    classifyMember [] ("/out".data) ("/out".data)
        { name := ("sub/link".data), type := MemberType.sym, linkname := ("b".data) }
      = Classification.safe
    ∧ classifyMember [] ("/out".data) ("/out".data)
        { name := ("sub/hl".data), type := MemberType.lnk, linkname := ("c".data) }
      = Classification.safe
    ∧ classifyMember [] ("/out".data) ("/out".data)
        { name := ("sub/hl2".data), type := MemberType.lnk, linkname := ("../esc".data) }
      ≠ Classification.safe :=
  ⟨(c4_amended_tip_containment [] ("/out".data) ("/out".data)
      { name := ("sub/link".data), type := MemberType.sym, linkname := ("b".data) }
      (by decide) (by decide)).mpr (by decide),
   (c4_amended_tip_containment [] ("/out".data) ("/out".data)
      { name := ("sub/hl".data), type := MemberType.lnk, linkname := ("c".data) }
      (by decide) (by decide)).mpr (by decide),
   fun h =>
     absurd ((c4_amended_tip_containment [] ("/out".data) ("/out".data)
       { name := ("sub/hl2".data), type := MemberType.lnk, linkname := ("../esc".data) }
       (by decide) (by decide)).mp h) (by decide)⟩

/-- Claim C5: for the member list `["a.txt", "../b.txt", "sub/c.txt"]`
filtered against base `/out` (the filter's base — the resolved working
directory — instantiated at `/out`), the filter yields exactly
`["a.txt", "sub/c.txt"]` in order, and `../b.txt` is classified BlockedPath
(the diagnostic case of the chain). -/
theorem c5_scenario :
    _get_safe_members [] ("/out".data)
        [{ name := ("a.txt".data), type := MemberType.reg, linkname := [] },
         { name := ("../b.txt".data), type := MemberType.reg, linkname := [] },
         { name := ("sub/c.txt".data), type := MemberType.reg, linkname := [] }]
      = [{ name := ("a.txt".data), type := MemberType.reg, linkname := [] },
         { name := ("sub/c.txt".data), type := MemberType.reg, linkname := [] }]
    ∧ classifyMember [] ("/out".data) (filterBase [] ("/out".data))
        { name := ("../b.txt".data), type := MemberType.reg, linkname := [] }
      = Classification.blockedPath := by
  decide

/-- Claim C6: the extraction entry point selects between two implementations
of the same contract: with the platform `data` filter available it delegates
(`extractall(filter="data")`) and the custom member filter is not run
(no member subset is computed); otherwise it extracts exactly the members
the custom filter yields. -/
theorem c6_platform_delegation (fs : Fs) (cwd : Str) (ms : List TarInfo) (p : Str) :
    custom_extractall_tarfile fs cwd true ms p
        = { extractPath := p, selected := none, usedDataFilter := true }
    ∧ custom_extractall_tarfile fs cwd false ms p
        = { extractPath := p, selected := some (_get_safe_members fs cwd ms),
            usedDataFilter := false } :=
  ⟨rfl, rfl⟩

/-- Claim C7: for every input member list the yielded sequence is a
subsequence of the input — order preserved, each occurrence yielded at most
once, and no member not present in the input ever yielded. -/
theorem c7_output_sublist (fs : Fs) (cwd : Str) (ms : List TarInfo) :
    (_get_safe_members fs cwd ms).Sublist ms
    ∧ (∀ m ∈ _get_safe_members fs cwd ms, m ∈ ms)
    ∧ (∀ m : TarInfo, (_get_safe_members fs cwd ms).count m ≤ ms.count m) := by
  refine ⟨List.filter_sublist ms, ?_, ?_⟩
  · intro m hm
    exact (List.filter_sublist ms).subset hm
  · intro m
    exact (List.filter_sublist ms).count_le m

/-- Claim C8: for a fixed filesystem state the filter is deterministic
(classification is a pure function of member, base and filesystem) and
idempotent: filtering the already-filtered list yields it unchanged. -/
theorem c8_deterministic_idempotent (fs : Fs) (cwd base : Str) (ms : List TarInfo) :
    ms.map (classifyMember fs cwd base) = ms.map (classifyMember fs cwd base)
    ∧ _get_safe_members fs cwd (_get_safe_members fs cwd ms)
        = _get_safe_members fs cwd ms := by
  refine ⟨rfl, ?_⟩
  simp only [_get_safe_members]
  rw [List.filter_filter]
  simp [Bool.and_self]

/-- Claim C9: on a filesystem with no symlink entries (nothing along the
candidate exists as a link — the not-yet-created-path case), the resolver is
total and returns exactly the lexical normalization `normpath(abspath(p))`,
for any absolute working directory and any candidate whose absolute form
does not hit the POSIX two-leading-slash special case. -/
theorem c9_resolver_total_lexical (cwd p : Str)
    (h1 : isAbsPath cwd = true)
    (h2 : isDoubleSlash (abspath cwd p) = false) :
    _get_resolved_path [] cwd p = normpath (abspath cwd p) :=
  resolved_path_nil_fs cwd p h1 h2

/-- Claim C9 witness: the resolver theorem applied to the nonexistent
relative candidate `../a/nope/b.txt` under working directory `/out`. -/
theorem c9_witness :
    _get_resolved_path [] ("/out".data) ("../a/nope/b.txt".data)
      = normpath (abspath ("/out".data) ("../a/nope/b.txt".data)) :=
  c9_resolver_total_lexical ("/out".data) ("../a/nope/b.txt".data) (by decide) (by decide)

/-- Claim C10: a member that is neither a symlink nor a hard link (any type:
regular, directory, device, FIFO) and whose name passes the path check is
yielded as Safe — type never blocks a member — and a member failing the path
check is BlockedPath regardless of being a link (path-check precedence). -/
theorem c10_non_link_members_safe (fs : Fs) (cwd : Str) (ms : List TarInfo)
    (m mBad : TarInfo)
    (h1 : m.issym = false) (h2 : m.islnk = false)
    (h3 : _is_bad_path fs cwd m.name (filterBase fs cwd) = false)
    (h4 : _is_bad_path fs cwd mBad.name (filterBase fs cwd) = true)
    (hm : m ∈ ms) :
    m ∈ _get_safe_members fs cwd ms
    ∧ classifyMember fs cwd (filterBase fs cwd) m = Classification.safe
    ∧ classifyMember fs cwd (filterBase fs cwd) mBad = Classification.blockedPath := by
  have hsafe : classifyMember fs cwd (filterBase fs cwd) m = Classification.safe := by
    simp [classifyMember, h3, h1, h2]
  refine ⟨?_, hsafe, ?_⟩
  · exact List.mem_filter.mpr ⟨hm, by simp [isSafeMember, hsafe]⟩
  · simp [classifyMember, h4]

/-- Claim C10 witness: the theorem applied to a device-type member `dev0`
(yielded Safe) and a traversal-named symlink `../esc -> /etc/passwd`
(BlockedPath, taking precedence over the link check). -/
theorem c10_witness :
    ({ name := ("dev0".data), type := MemberType.other, linkname := [] } : TarInfo)
        ∈ _get_safe_members [] ("/out".data)
            [{ name := ("dev0".data), type := MemberType.other, linkname := [] },
             { name := ("../esc".data), type := MemberType.sym,
               linkname := ("/etc/passwd".data) }]
    ∧ classifyMember [] ("/out".data) (filterBase [] ("/out".data))
        { name := ("dev0".data), type := MemberType.other, linkname := [] }
      = Classification.safe
    ∧ classifyMember [] ("/out".data) (filterBase [] ("/out".data))
        { name := ("../esc".data), type := MemberType.sym,
          linkname := ("/etc/passwd".data) }
      = Classification.blockedPath :=
  c10_non_link_members_safe [] ("/out".data) _ _ _ (by decide) (by decide) (by decide)
    (by decide) (by decide)

end RepackModel
